import Mathlib

/-!
Shallow embedding of the mancala rules engine (src/mancala.py) and
verification of its specification.

The board is a list of natural numbers of even length `2*H`; index `0` is
player ONE's base, index `H` is player TWO's base.  All definitions below
mirror the corresponding Python methods of `class State`.
-/

/-- The two players (Python `class Player(enum.Enum)`). -/
inductive Player where
  | ONE
  | TWO
deriving DecidableEq, Repr

/-- Python `Player.other`: `Player.ONE if self == Player.TWO else Player.TWO`. -/
def Player.other : Player → Player
  | .TWO => .ONE
  | .ONE => .TWO

/-- Failures of `State.move`: the `assert src_pos in self.POTS` and the
`raise Exception("Can't move a spot with 0 beads")`. -/
inductive MoveError where
  | invalidPot
  | zeroBeads
deriving DecidableEq, Repr

/-- Failure of the constructor `State.__init__`:
`assert (len(board) % 2) == 0`. -/
inductive ShapeError where
  | oddLength
deriving DecidableEq, Repr

/-- Python `class State`: the board.  (`runs` and `verbose` are plumbing for
the advisor and printing; they do not affect the board semantics and are
passed explicitly where needed.) -/
structure State where
  board : List Nat
deriving DecidableEq, Repr

def State.START (_s : State) : Nat := 0

def State.HALF (s : State) : Nat := s.board.length / 2

def State.END (s : State) : Nat := s.board.length

/-- Python `self.POTS = [Pot(n) for n in range(1, self.HALF)]`. -/
def State.POTS (s : State) : List Nat := List.range' 1 (s.HALF - 1)

/-- Python `self.OFFSETS = {Player.ONE: self.START, Player.TWO: self.HALF}`. -/
def State.OFFSETS (s : State) : Player → Nat
  | .ONE => s.START
  | .TWO => s.HALF

/-- The checked constructor: `State.__init__` asserts only that the board
length is even. -/
def State.new (board : List Nat) : Except ShapeError State :=
  if board.length % 2 = 0 then .ok ⟨board⟩ else .error .oddLength

/-- Python `State.in_p1_range`:
`pos != self.OFFSETS[Player.ONE] and ((pos // self.HALF) % 2) == 0`. -/
def State.in_p1_range (s : State) (pos : Nat) : Bool :=
  pos != s.OFFSETS Player.ONE && (pos / s.HALF) % 2 == 0

/-- Python `State.in_p2_range`:
`pos != self.OFFSETS[Player.TWO] and ((pos // self.HALF) % 2) == 1`. -/
def State.in_p2_range (s : State) (pos : Nat) : Bool :=
  pos != s.OFFSETS Player.TWO && (pos / s.HALF) % 2 == 1

/-- Python `State.get_opposite`: `None` for either base
(`pos in self.OFFSETS.values()`), otherwise `self.END - pos`. -/
def State.get_opposite (s : State) (pos : Nat) : Option Nat :=
  if pos = s.OFFSETS Player.ONE ∨ pos = s.OFFSETS Player.TWO then none
  else some (s.END - pos)

/-- One iteration of the Python drop-off loop, advancing to the position the
next bead is placed in: `pos = (pos - 1) % self.END` and, when that position
is the opponent's base, no bead is dropped there and the loop decrements
again (the decremented position differs from the base whenever `len ≥ 2`, so
at most one skip happens between two placements).  `(pos + len - 1) % len`
equals Python's `(pos - 1) % len` on naturals. -/
def nextPos (len oppBase pos : Nat) : Nat :=
  if (pos + len - 1) % len = oppBase then ((pos + len - 1) % len + len - 1) % len
  else (pos + len - 1) % len

/-- The Python `while True` drop-off loop of `State.move`: starting from the
source position, place `beads` beads one at a time, each into the next
position given by `nextPos`; return the final board together with
`final_pos`, the position the last bead was placed in. -/
def sow (len oppBase : Nat) : List Nat → Nat → Nat → List Nat × Nat
  | board, pos, 0 => (board, pos)
  | board, pos, beads + 1 =>
    sow len oppBase
      (board.set (nextPos len oppBase pos) (board.getD (nextPos len oppBase pos) 0 + 1))
      (nextPos len oppBase pos) beads

/-- The capture block at the end of Python `State.move`: if the final bead
was placed in a non-base position now holding exactly one bead, inside the
moving player's own range, move the beads of the opposite pit into the
moving player's base and zero the opposite pit. -/
def captureStep (s : State) (player : Player) (bd : List Nat) (final_pos : Nat) : List Nat :=
  if final_pos ≠ s.OFFSETS Player.ONE ∧ final_pos ≠ s.OFFSETS Player.TWO then
    if bd.getD final_pos 0 = 1 then
      if (player = Player.ONE ∧ s.in_p1_range final_pos) ∨
          (player = Player.TWO ∧ s.in_p2_range final_pos) then
        match s.get_opposite final_pos with
        | some opposite =>
          (bd.set (s.OFFSETS player)
            (bd.getD (s.OFFSETS player) 0 + bd.getD opposite 0)).set opposite 0
        | none => bd
      else bd
    else bd
  else bd

/-- The pick-up and drop-off phase of `State.move`: zero the chosen pit and
sow its beads.  The skip condition of the Python loop,
`(player == ONE and pos == OFFSETS[TWO]) or (player == TWO and pos == OFFSETS[ONE])`,
is exactly `pos == OFFSETS[player.other]`. -/
def sowPhase (s : State) (player : Player) (src_pos : Nat) : List Nat × Nat :=
  sow s.END (s.OFFSETS player.other)
    (s.board.set (s.OFFSETS player + src_pos) 0)
    (s.OFFSETS player + src_pos)
    (s.board.getD (s.OFFSETS player + src_pos) 0)

/-- Python `State.move`: check the pot is valid and non-empty, pick up and
sow the beads, then resolve a possible capture. -/
def State.move (s : State) (player : Player) (src_pos : Nat) : Except MoveError State :=
  if src_pos ∈ s.POTS then
    if s.board.getD (s.OFFSETS player + src_pos) 0 = 0 then .error .zeroBeads
    else .ok ⟨captureStep s player (sowPhase s player src_pos).1 (sowPhase s player src_pos).2⟩
  else .error .invalidPot

/-- Python `State.possible_moves`: the pots of `POTS` (ascending) whose pit
on `player`'s side is non-empty. -/
def State.possible_moves (s : State) (player : Player) : List Nat :=
  s.POTS.filter (fun pot => s.board.getD (s.OFFSETS player + pot) 0 != 0)

/-- Python `State.p1_wins_by`: `sum(board[0:HALF]) - sum(board[HALF:END])`
(`END` is the board length, so the second slice is the whole tail). -/
def State.p1_wins_by (s : State) : Int :=
  ((s.board.take s.HALF).sum : Int) - ((s.board.drop s.HALF).sum : Int)

/-- Python `State.tree`: one random playout.  The draw
`random.choice(possible_moves)` is modelled by the oracle `pick`, and the
unbounded recursion by explicit fuel (`none` = fuel exhausted). -/
def State.tree : State → Player → (List Nat → Nat) → Nat → Option Int
  | _, _, _, 0 => none
  | s, player, pick, fuel + 1 =>
    if s.possible_moves player.other = [] then some s.p1_wins_by
    else if s.possible_moves player = [] then some s.p1_wins_by
    else
      match s.move player (pick (s.possible_moves player)) with
      | .ok s2 => s2.tree player.other pick fuel
      | .error _ => none

/-- Python `State.hypothetical_moves`: for each legal pot, apply it and sum
`runs` playout margins of the resulting board (the playout outcomes,
which in Python come from `hypothetical.tree(player.other)` consuming the
global RNG, are modelled by the oracle `T` applied to the hypothetical board
and the run index), negate for player TWO, and divide by `runs`. -/
def State.hypothetical_moves (s : State) (player : Player) (runs : Nat)
    (T : List Nat → Nat → Int) : List (Nat × Rat) :=
  (s.possible_moves player).map (fun n =>
    match s.move player n with
    | .ok hypothetical =>
      (n, ((if player = Player.TWO
            then -((List.range runs).foldl (fun acc x => acc + T hypothetical.board x) 0)
            else (List.range runs).foldl (fun acc x => acc + T hypothetical.board x) 0 : Int) : Rat)
          / (runs : Rat))
    | .error _ => (n, 0))

/-- Lexicographic order on `(value, pot)` pairs, as used by Python's
`sorted` on the tuples `[(v, k) for k, v in results.items()]`. -/
def pairLe (a b : Rat × Nat) : Bool :=
  decide (a.1 < b.1 ∨ (a.1 = b.1 ∧ a.2 ≤ b.2))

/-- Python `State.suggest`: `None` when there is no legal move, otherwise
the pot of the last element of the sorted `(value, pot)` pairs. -/
def State.suggest (s : State) (player : Player) (runs : Nat)
    (T : List Nat → Nat → Int) : Option Nat :=
  if s.hypothetical_moves player runs T = [] then none
  else some ((((s.hypothetical_moves player runs T).map
      (fun kv => (kv.2, kv.1))).mergeSort pairLe).getLast?.getD (0, 0)).2

/-- Modelled from the spec: one step of "decreasing absolute-index order,
wrapping modulo board length". -/
def decStep (len pos : Nat) : Nat := (pos + len - 1) % len

/-- Modelled from the spec: the first `m` positions after `pos` in
decreasing absolute-index order, wrapping modulo `len`. -/
def rawSeq (len : Nat) : Nat → Nat → List Nat
  | _, 0 => []
  | pos, m + 1 => decStep len pos :: rawSeq len (decStep len pos) m

/-- Modelled from the spec: the positions receiving a bead — the decreasing
wrapping sequence with the opponent's base skipped entirely (it does not
consume a bead), cut off once all `beads` beads are placed.  `2 * beads` raw
steps always suffice to produce `beads` non-base positions when `len ≥ 2`. -/
def specSowTargets (len oppBase pos beads : Nat) : List Nat :=
  ((rawSeq len pos (2 * beads)).filter (fun q => q != oppBase)).take beads

/-- The spec-side sowing targets of a move of `player` from `src_pos`. -/
def specTargetsOf (s : State) (player : Player) (src_pos : Nat) : List Nat :=
  specSowTargets s.END (s.OFFSETS player.other) (s.OFFSETS player + src_pos)
    (s.board.getD (s.OFFSETS player + src_pos) 0)

/-! ### Basic lemmas -/

/-- Whether an `Except` value is a failure. -/
def isError {ε α : Type} : Except ε α → Bool
  | .error _ => true
  | .ok _ => false

instance {ε α : Type} [DecidableEq ε] [DecidableEq α] : DecidableEq (Except ε α) := fun x y =>
  match x, y with
  | .ok a, .ok b =>
    if h : a = b then isTrue (by rw [h])
    else isFalse (by intro hc; injection hc; contradiction)
  | .error a, .error b =>
    if h : a = b then isTrue (by rw [h])
    else isFalse (by intro hc; injection hc; contradiction)
  | .ok _, .error _ => isFalse (by intro hc; cases hc)
  | .error _, .ok _ => isFalse (by intro hc; cases hc)

theorem mem_POTS (s : State) (pot : Nat) :
    pot ∈ s.POTS ↔ 1 ≤ pot ∧ pot ≤ s.HALF - 1 := by
  rw [State.POTS, List.mem_range'_1]
  omega

/-! ### C7: invalid-move error handling -/

/-- Claim C7: `move` fails exactly when the pot is outside `1..H-1` or the
referenced pit holds `0` beads.  (The embedding is pure, so the input board
is trivially left unchanged on failure, as in Python, where only the fresh
copy `new_board` is ever written to.) -/
theorem move_isErr_iff (s : State) (player : Player) (pot : Nat) :
    isError (s.move player pot) = true ↔
      ¬(1 ≤ pot ∧ pot ≤ s.HALF - 1) ∨ s.board.getD (s.OFFSETS player + pot) 0 = 0 := by
  have hmem := mem_POTS s pot
  rw [State.move]
  by_cases hp : pot ∈ s.POTS
  · by_cases hb : s.board.getD (s.OFFSETS player + pot) 0 = 0
    · rw [if_pos hp, if_pos hb]
      exact ⟨fun _ => Or.inr hb, fun _ => rfl⟩
    · rw [if_pos hp, if_neg hb]
      constructor
      · intro hcon
        simp [isError] at hcon
      · intro hcon
        rcases hcon with h1 | h2
        · exact absurd (hmem.mp hp) h1
        · exact absurd h2 hb
  · rw [if_neg hp]
    exact ⟨fun _ => Or.inl (fun hcon => hp (hmem.mpr hcon)), fun _ => rfl⟩

/-! ### C4: legal-move enumeration -/

/-- Claim C4: `possible_moves` returns exactly the pots `1..H-1` whose pit
holds beads, in (strictly) ascending order, and is empty precisely when no
such pot exists. -/
theorem possible_moves_spec (s : State) (player : Player) :
    (∀ pot, pot ∈ s.possible_moves player ↔
      (1 ≤ pot ∧ pot ≤ s.HALF - 1 ∧ 0 < s.board.getD (s.OFFSETS player + pot) 0)) ∧
    (s.possible_moves player).Pairwise (fun a b => a < b) ∧
    (s.possible_moves player = [] ↔
      ∀ pot, ¬(1 ≤ pot ∧ pot ≤ s.HALF - 1 ∧ 0 < s.board.getD (s.OFFSETS player + pot) 0)) := by
  have hmm : ∀ pot, pot ∈ s.possible_moves player ↔
      (1 ≤ pot ∧ pot ≤ s.HALF - 1 ∧ 0 < s.board.getD (s.OFFSETS player + pot) 0) := by
    intro pot
    rw [State.possible_moves, List.mem_filter, mem_POTS, bne_iff_ne]
    omega
  refine ⟨hmm, ?_, ?_⟩
  · exact (List.pairwise_lt_range' 1 (s.HALF - 1)).filter _
  · rw [List.eq_nil_iff_forall_not_mem]
    constructor
    · intro h pot hcon
      exact h pot ((hmm pot).mpr hcon)
    · intro h pot hcon
      exact h pot ((hmm pot).mp hcon)

/-! ### C8: board construction (corrected) -/

/-- Counterexample to claim C8 as stated: construction of the even,
too-short board `[1, 2]` succeeds, although the claim says every board of
length less than 4 is rejected. -/
theorem new_shape_claim_counterexample :
    ¬((isError (State.new [1, 2]) = true) ↔
      (([1, 2] : List Nat).length % 2 = 1 ∨ ([1, 2] : List Nat).length < 4)) := by
  decide

/-- Claim C8 (amended): construction fails with a `ShapeError` exactly when
the board length is odd; every even-length board (however short) is
accepted. -/
theorem new_shape_iff (board : List Nat) :
    isError (State.new board) = true ↔ board.length % 2 = 1 := by
  rw [State.new]
  by_cases h : board.length % 2 = 0
  · rw [if_pos h]
    constructor
    · intro hcon
      simp [isError] at hcon
    · intro hcon
      omega
  · rw [if_neg h]
    exact ⟨fun _ => by omega, fun _ => rfl⟩

/-! ### Sowing and capture arithmetic -/

theorem OFFSETS_ONE (s : State) : s.OFFSETS Player.ONE = 0 := rfl

theorem OFFSETS_TWO (s : State) : s.OFFSETS Player.TWO = s.HALF := rfl

theorem nextPos_lt (len oppBase pos : Nat) (hlen : 0 < len) :
    nextPos len oppBase pos < len := by
  rw [nextPos]
  split_ifs <;> exact Nat.mod_lt _ hlen

theorem getD_set_ne_idx (l : List Nat) (i j v : Nat) (h : i ≠ j) :
    (l.set i v).getD j 0 = l.getD j 0 := by
  rw [List.getD_eq_getElem?_getD, List.getD_eq_getElem?_getD, List.getElem?_set_ne h]

theorem getD_set_self_idx (l : List Nat) (i v : Nat) (h : i < l.length) :
    (l.set i v).getD i 0 = v := by
  rw [List.getD_eq_getElem?_getD, List.getElem?_set_self h]
  rfl

theorem sum_set_add (l : List Nat) (i v : Nat) (h : i < l.length) :
    (l.set i v).sum + l.getD i 0 = l.sum + v := by
  induction l generalizing i with
  | nil => simp at h
  | cons a t ih =>
    cases i with
    | zero =>
      simp only [List.set_cons_zero, List.sum_cons, List.getD_cons_zero]
      omega
    | succ j =>
      have hj : j < t.length := by simpa using h
      have h2 := ih j hj
      simp only [List.set_cons_succ, List.sum_cons, List.getD_cons_succ]
      omega

theorem sow_sum_length (len oppBase : Nat) (hlen : 0 < len) :
    ∀ (beads : Nat) (board : List Nat) (pos : Nat), board.length = len →
      (sow len oppBase board pos beads).1.sum = board.sum + beads ∧
      (sow len oppBase board pos beads).1.length = len := by
  intro beads
  induction beads with
  | zero =>
    intro board pos hb
    simp [sow, hb]
  | succ b ih =>
    intro board pos hb
    rw [sow]
    have hp : nextPos len oppBase pos < len := nextPos_lt len oppBase pos hlen
    have hplen : (board.set (nextPos len oppBase pos)
        (board.getD (nextPos len oppBase pos) 0 + 1)).length = len := by
      rw [List.length_set]; exact hb
    have hsum := sum_set_add board (nextPos len oppBase pos)
      (board.getD (nextPos len oppBase pos) 0 + 1) (by omega)
    obtain ⟨ih1, ih2⟩ := ih _ (nextPos len oppBase pos) hplen
    exact ⟨by rw [ih1]; omega, ih2⟩

theorem sow_final_lt (len oppBase : Nat) (hlen : 0 < len) :
    ∀ (b : Nat) (board : List Nat) (pos : Nat),
      (sow len oppBase board pos (b + 1)).2 < len := by
  intro b
  induction b with
  | zero =>
    intro board pos
    simp only [sow]
    exact nextPos_lt len oppBase pos hlen
  | succ b ih =>
    intro board pos
    rw [sow]
    exact ih _ _

theorem captureStep_sum (s : State) (player : Player) (bd : List Nat) (fp : Nat)
    (hlen : bd.length = s.END) (hfp : fp < s.END) (heven : s.END = 2 * s.HALF) :
    (captureStep s player bd fp).sum = bd.sum := by
  rw [captureStep]
  split_ifs with h1 h2 h3
  · rw [OFFSETS_ONE, OFFSETS_TWO] at h1
    have hopp : s.get_opposite fp = some (s.END - fp) := by
      rw [State.get_opposite, if_neg]
      rw [OFFSETS_ONE, OFFSETS_TWO]
      push_neg
      exact h1
    rw [hopp]
    show ((bd.set (s.OFFSETS player)
        (bd.getD (s.OFFSETS player) 0 + bd.getD (s.END - fp) 0)).set (s.END - fp) 0).sum = bd.sum
    have hbase : s.OFFSETS player < bd.length := by
      cases player
      · rw [OFFSETS_ONE]; omega
      · rw [OFFSETS_TWO]; omega
    have hopplt : s.END - fp < bd.length := by omega
    have hneq : s.OFFSETS player ≠ s.END - fp := by
      cases player
      · rw [OFFSETS_ONE]; omega
      · rw [OFFSETS_TWO]; omega
    have e1 := sum_set_add bd (s.OFFSETS player)
      (bd.getD (s.OFFSETS player) 0 + bd.getD (s.END - fp) 0) hbase
    have e2 := sum_set_add
      (bd.set (s.OFFSETS player) (bd.getD (s.OFFSETS player) 0 + bd.getD (s.END - fp) 0))
      (s.END - fp) 0 (by rw [List.length_set]; exact hopplt)
    have e3 := getD_set_ne_idx bd (s.OFFSETS player) (s.END - fp)
      (bd.getD (s.OFFSETS player) 0 + bd.getD (s.END - fp) 0) hneq
    rw [e3] at e2
    omega
  · rfl
  · rfl
  · rfl

/-- Legality data extracted from a successful `move`. -/
theorem move_ok_elim (s : State) (player : Player) (pot : Nat) (s2 : State)
    (h : s.move player pot = .ok s2) :
    pot ∈ s.POTS ∧ s.board.getD (s.OFFSETS player + pot) 0 ≠ 0 ∧
    s2.board = captureStep s player (sowPhase s player pot).1 (sowPhase s player pot).2 := by
  rw [State.move] at h
  by_cases hp : pot ∈ s.POTS
  · rw [if_pos hp] at h
    by_cases hz : s.board.getD (s.OFFSETS player + pot) 0 = 0
    · rw [if_pos hz] at h
      cases h
    · rw [if_neg hz] at h
      injection h with h
      exact ⟨hp, hz, by rw [h.symm]⟩
  · rw [if_neg hp] at h
    cases h

/-- Bounds that hold whenever a move is legal. -/
theorem legal_bounds (s : State) (player : Player) (pot : Nat) (hp : pot ∈ s.POTS) :
    4 ≤ s.END ∧ 2 ≤ s.HALF ∧ s.OFFSETS player + pot < s.END ∧
    0 < s.OFFSETS player + pot ∧ s.OFFSETS player + pot ≠ s.HALF ∧
    s.OFFSETS player + pot ≠ s.OFFSETS player.other := by
  have hH := (mem_POTS s pot).mp hp
  have hHALF : s.HALF = s.board.length / 2 := rfl
  have hEND : s.END = s.board.length := rfl
  cases player
  · simp only [Player.other, OFFSETS_ONE, OFFSETS_TWO]
    omega
  · simp only [Player.other, OFFSETS_ONE, OFFSETS_TWO]
    omega

/-! ### C3: bead conservation -/

/-- Claim C3: a successful move of a (well-formed, even-length) board
preserves the total number of beads. -/
theorem move_preserves_bead_sum (s : State) (player : Player) (pot : Nat) (s2 : State)
    (heven : s.board.length % 2 = 0) (h : s.move player pot = .ok s2) :
    s2.board.sum = s.board.sum := by
  obtain ⟨hp, hz, hcap⟩ := move_ok_elim s player pot s2 h
  obtain ⟨hE4, hH2, hposlt, hpos0, hposH, hposo⟩ := legal_bounds s player pot hp
  have hHALF : s.HALF = s.board.length / 2 := rfl
  have hEND : s.END = s.board.length := rfl
  have heven2 : s.END = 2 * s.HALF := by omega
  have hlen0 : 0 < s.END := by omega
  have hb1len : (s.board.set (s.OFFSETS player + pot) 0).length = s.END := by
    rw [List.length_set]
    omega
  have hsum1 := sum_set_add s.board (s.OFFSETS player + pot) 0 (by omega)
  obtain ⟨hsow_sum, hsow_len⟩ := sow_sum_length s.END (s.OFFSETS player.other) hlen0
    (s.board.getD (s.OFFSETS player + pot) 0) (s.board.set (s.OFFSETS player + pot) 0)
    (s.OFFSETS player + pot) hb1len
  have hfp : (sowPhase s player pot).2 < s.END := by
    obtain ⟨b, hb⟩ : ∃ b, s.board.getD (s.OFFSETS player + pot) 0 = b + 1 :=
      ⟨s.board.getD (s.OFFSETS player + pot) 0 - 1, by omega⟩
    simp only [sowPhase, hb]
    exact sow_final_lt s.END (s.OFFSETS player.other) hlen0 b _ _
  have hcs := captureStep_sum s player (sowPhase s player pot).1 (sowPhase s player pot).2
    (by simp only [sowPhase]; exact hsow_len) hfp heven2
  rw [hcap, hcs]
  simp only [sowPhase]
  omega

/-- Witness for C3 at the doctest move
`[0,1,1,2,0,1,1,2].move(ONE, 3) = [0,2,2,0,0,1,1,2]`. -/
theorem move_preserves_bead_sum_witness :
    (State.mk [0, 2, 2, 0, 0, 1, 1, 2]).board.sum = (State.mk [0, 1, 1, 2, 0, 1, 1, 2]).board.sum :=
  move_preserves_bead_sum (State.mk [0, 1, 1, 2, 0, 1, 1, 2]) Player.ONE 3
    (State.mk [0, 2, 2, 0, 0, 1, 1, 2]) (by decide) (by decide)

/-! ### C2: capture rule -/

/-- Claim C2: after sowing (`sowPhase` gives the sown board and the position
of the last bead placed), a capture happens exactly when the final position
is neither base, the pit there now holds exactly one bead, and it lies in
the acting player's own range; the capture empties the opposite pit (at
absolute position `2H - final_pos`) into the acting player's base.  In every
other case the resulting board is exactly the sown board. -/
theorem move_capture_rule (s : State) (player : Player) (pot : Nat) (s2 : State)
    (h : s.move player pot = .ok s2) :
    (((sowPhase s player pot).2 ≠ 0 ∧ (sowPhase s player pot).2 ≠ s.HALF ∧
        (sowPhase s player pot).1.getD (sowPhase s player pot).2 0 = 1 ∧
        ((player = Player.ONE ∧ s.in_p1_range (sowPhase s player pot).2) ∨
          (player = Player.TWO ∧ s.in_p2_range (sowPhase s player pot).2))) →
      s2.board = ((sowPhase s player pot).1.set (s.OFFSETS player)
          ((sowPhase s player pot).1.getD (s.OFFSETS player) 0 +
            (sowPhase s player pot).1.getD (s.END - (sowPhase s player pot).2) 0)).set
          (s.END - (sowPhase s player pot).2) 0) ∧
    (¬((sowPhase s player pot).2 ≠ 0 ∧ (sowPhase s player pot).2 ≠ s.HALF ∧
        (sowPhase s player pot).1.getD (sowPhase s player pot).2 0 = 1 ∧
        ((player = Player.ONE ∧ s.in_p1_range (sowPhase s player pot).2) ∨
          (player = Player.TWO ∧ s.in_p2_range (sowPhase s player pot).2))) →
      s2.board = (sowPhase s player pot).1) := by
  obtain ⟨hp, hz, hcap⟩ := move_ok_elim s player pot s2 h
  rw [hcap, captureStep, OFFSETS_ONE, OFFSETS_TWO]
  constructor
  · rintro ⟨h0, hH, h1, hr⟩
    rw [if_pos ⟨h0, hH⟩, if_pos h1, if_pos hr]
    have hopp : s.get_opposite (sowPhase s player pot).2
        = some (s.END - (sowPhase s player pot).2) := by
      rw [State.get_opposite, if_neg]
      rw [OFFSETS_ONE, OFFSETS_TWO]
      push_neg
      exact ⟨h0, hH⟩
    rw [hopp]
  · intro hn
    by_cases c1 : (sowPhase s player pot).2 ≠ 0 ∧ (sowPhase s player pot).2 ≠ s.HALF
    · rw [if_pos c1]
      by_cases c2 : (sowPhase s player pot).1.getD (sowPhase s player pot).2 0 = 1
      · rw [if_pos c2]
        by_cases c3 : (player = Player.ONE ∧ s.in_p1_range (sowPhase s player pot).2) ∨
            (player = Player.TWO ∧ s.in_p2_range (sowPhase s player pot).2)
        · exact absurd ⟨c1.1, c1.2, c2, c3⟩ hn
        · rw [if_neg c3]
      · rw [if_neg c2]
    · rw [if_neg c1]

/-- Witness for C2 at the doctest capture
`[0,0,0,2,0,0,0,2].move(ONE, 3) = [2,1,1,0,0,0,0,0]`. -/
theorem move_capture_rule_witness :
    (State.mk [2, 1, 1, 0, 0, 0, 0, 0]).board
      = ((sowPhase (State.mk [0, 0, 0, 2, 0, 0, 0, 2]) Player.ONE 3).1.set
          ((State.mk [0, 0, 0, 2, 0, 0, 0, 2]).OFFSETS Player.ONE)
          ((sowPhase (State.mk [0, 0, 0, 2, 0, 0, 0, 2]) Player.ONE 3).1.getD
            ((State.mk [0, 0, 0, 2, 0, 0, 0, 2]).OFFSETS Player.ONE) 0 +
            (sowPhase (State.mk [0, 0, 0, 2, 0, 0, 0, 2]) Player.ONE 3).1.getD
              ((State.mk [0, 0, 0, 2, 0, 0, 0, 2]).END
                - (sowPhase (State.mk [0, 0, 0, 2, 0, 0, 0, 2]) Player.ONE 3).2) 0)).set
          ((State.mk [0, 0, 0, 2, 0, 0, 0, 2]).END
            - (sowPhase (State.mk [0, 0, 0, 2, 0, 0, 0, 2]) Player.ONE 3).2) 0 := by
  have h := move_capture_rule (State.mk [0, 0, 0, 2, 0, 0, 0, 2]) Player.ONE 3
    (State.mk [2, 1, 1, 0, 0, 0, 0, 0]) (by decide)
  exact h.1 (by decide)

/-! ### C1: the sowing phase matches the spec description -/

/-- Placing one bead into position `q`. -/
def place (bd : List Nat) (q : Nat) : List Nat := bd.set q (bd.getD q 0 + 1)

theorem decStep_lt (len pos : Nat) (h : 0 < len) : decStep len pos < len :=
  Nat.mod_lt _ h

theorem decStep_ne_self (len pos : Nat) (h2 : 2 ≤ len) (hp : pos < len) :
    decStep len pos ≠ pos := by
  rw [decStep]
  rcases Nat.eq_zero_or_pos pos with h0 | h0
  · subst h0
    rw [Nat.zero_add, Nat.mod_eq_of_lt (by omega)]
    omega
  · have e : pos + len - 1 = (pos - 1) + len := by omega
    rw [e, Nat.add_mod_right, Nat.mod_eq_of_lt (by omega)]
    omega

theorem nextPos_eq (len oppBase pos : Nat) :
    nextPos len oppBase pos
      = if decStep len pos = oppBase then decStep len (decStep len pos)
        else decStep len pos := rfl

theorem nextPos_ne_oppBase (len oppBase pos : Nat) (h2 : 2 ≤ len) :
    nextPos len oppBase pos ≠ oppBase := by
  rw [nextPos_eq]
  by_cases h : decStep len pos = oppBase
  · rw [if_pos h, h]
    have hlt : oppBase < len := h ▸ decStep_lt len pos (by omega)
    exact decStep_ne_self len oppBase h2 hlt
  · rw [if_neg h]
    exact h

theorem rawSeq_succ (len pos m : Nat) :
    rawSeq len pos (m + 1) = decStep len pos :: rawSeq len (decStep len pos) m := rfl

theorem rawSeq_snoc (len : Nat) :
    ∀ (m pos : Nat), ∃ q, rawSeq len pos (m + 1) = rawSeq len pos m ++ [q] := by
  intro m
  induction m with
  | zero =>
    intro pos
    exact ⟨decStep len pos, rfl⟩
  | succ m ih =>
    intro pos
    obtain ⟨q, hq⟩ := ih (decStep len pos)
    refine ⟨q, ?_⟩
    calc rawSeq len pos (m + 1 + 1)
        = decStep len pos :: rawSeq len (decStep len pos) (m + 1) := rfl
      _ = decStep len pos :: (rawSeq len (decStep len pos) m ++ [q]) := by rw [hq]
      _ = rawSeq len pos (m + 1) ++ [q] := rfl

theorem filter_rawSeq_length (len oppBase : Nat) (h2 : 2 ≤ len) :
    ∀ (b pos : Nat),
      b ≤ ((rawSeq len pos (2 * b)).filter (fun q => q != oppBase)).length := by
  intro b
  induction b with
  | zero =>
    intro pos
    simp
  | succ b ih =>
    intro pos
    have h0 : 0 < len := by omega
    have e : 2 * (b + 1) = (2 * b) + 1 + 1 := by ring
    rw [e, rawSeq_succ, rawSeq_succ]
    have hne : decStep len (decStep len pos) ≠ decStep len pos :=
      decStep_ne_self len (decStep len pos) h2 (decStep_lt len pos h0)
    by_cases hd1 : decStep len pos = oppBase
    · have hd1f : ¬(decStep len pos != oppBase) = true := by
        rw [hd1, bne_self_eq_false]
        simp
      have hd2t : (decStep len (decStep len pos) != oppBase) = true := by
        rw [bne_iff_ne, hd1]
        rw [hd1] at hne
        exact hne
      rw [List.filter_cons_of_neg (p := fun q => q != oppBase) hd1f, List.filter_cons_of_pos (p := fun q => q != oppBase) hd2t, List.length_cons]
      have := ih (decStep len (decStep len pos))
      omega
    · have hd1t : (decStep len pos != oppBase) = true := by
        rw [bne_iff_ne]
        exact hd1
      rw [List.filter_cons_of_pos (p := fun q => q != oppBase) hd1t, List.length_cons]
      by_cases hd2 : (decStep len (decStep len pos) != oppBase) = true
      · rw [List.filter_cons_of_pos (p := fun q => q != oppBase) hd2, List.length_cons]
        have := ih (decStep len (decStep len pos))
        omega
      · rw [List.filter_cons_of_neg (p := fun q => q != oppBase) hd2]
        have := ih (decStep len (decStep len pos))
        omega

theorem specSowTargets_zero (len oppBase pos : Nat) :
    specSowTargets len oppBase pos 0 = [] := rfl

theorem specSowTargets_succ (len oppBase pos b : Nat) (h2 : 2 ≤ len) :
    specSowTargets len oppBase pos (b + 1)
      = nextPos len oppBase pos :: specSowTargets len oppBase (nextPos len oppBase pos) b := by
  have h0 : 0 < len := by omega
  have e : 2 * (b + 1) = (2 * b) + 1 + 1 := by ring
  rw [specSowTargets, e, rawSeq_succ, rawSeq_succ]
  have hne : decStep len (decStep len pos) ≠ decStep len pos :=
    decStep_ne_self len (decStep len pos) h2 (decStep_lt len pos h0)
  by_cases hd1 : decStep len pos = oppBase
  · have hnp : nextPos len oppBase pos = decStep len (decStep len pos) := by
      rw [nextPos_eq, if_pos hd1]
    have hd1f : ¬(decStep len pos != oppBase) = true := by
      rw [hd1, bne_self_eq_false]
      simp
    have hd2t : (decStep len (decStep len pos) != oppBase) = true := by
      rw [bne_iff_ne, hd1]
      rw [hd1] at hne
      exact hne
    rw [List.filter_cons_of_neg (p := fun q => q != oppBase) hd1f, List.filter_cons_of_pos (p := fun q => q != oppBase) hd2t,
      List.take_succ_cons, hnp, specSowTargets]
  · have hnp : nextPos len oppBase pos = decStep len pos := by
      rw [nextPos_eq, if_neg hd1]
    have hd1t : (decStep len pos != oppBase) = true := by
      rw [bne_iff_ne]
      exact hd1
    rw [List.filter_cons_of_pos (p := fun q => q != oppBase) hd1t, List.take_succ_cons, hnp, specSowTargets]
    rw [← rawSeq_succ len (decStep len pos) (2 * b)]
    obtain ⟨q, hq⟩ := rawSeq_snoc len (2 * b) (decStep len pos)
    rw [hq, List.filter_append,
      List.take_append_of_le_length (filter_rawSeq_length len oppBase h2 b (decStep len pos))]

theorem specSowTargets_length (len oppBase pos b : Nat) (h2 : 2 ≤ len) :
    (specSowTargets len oppBase pos b).length = b := by
  rw [specSowTargets, List.length_take]
  have := filter_rawSeq_length len oppBase h2 b pos
  omega

theorem specSowTargets_not_mem (len oppBase pos b : Nat) :
    oppBase ∉ specSowTargets len oppBase pos b := by
  intro hmem
  rw [specSowTargets] at hmem
  have h2 := List.mem_of_mem_take hmem
  rw [List.mem_filter] at h2
  have h3 := h2.2
  rw [bne_self_eq_false] at h3
  exact absurd h3 (by simp)

theorem sow_eq_spec (len oppBase : Nat) (h2 : 2 ≤ len) :
    ∀ (beads : Nat) (board : List Nat) (pos : Nat),
      sow len oppBase board pos beads
        = ((specSowTargets len oppBase pos beads).foldl place board,
           (specSowTargets len oppBase pos beads).getLast?.getD pos) := by
  intro beads
  induction beads with
  | zero =>
    intro board pos
    rw [specSowTargets_zero]
    rfl
  | succ b ih =>
    intro board pos
    rw [specSowTargets_succ len oppBase pos b h2]
    have hs : sow len oppBase board pos (b + 1)
        = sow len oppBase (place board (nextPos len oppBase pos)) (nextPos len oppBase pos) b :=
      rfl
    rw [hs, ih]
    rw [Prod.mk.injEq]
    refine ⟨rfl, ?_⟩
    cases b with
    | zero =>
      rw [specSowTargets_zero]
      rfl
    | succ b2 =>
      have hlen := specSowTargets_length len oppBase (nextPos len oppBase pos) (b2 + 1) h2
      cases hL : specSowTargets len oppBase (nextPos len oppBase pos) (b2 + 1) with
      | nil =>
        rw [hL] at hlen
        simp at hlen
      | cons x xs =>
        rw [List.getLast?_cons_cons, List.getLast?_eq_getLast (x :: xs) (by simp)]
        rfl

/-- Claim C1: for a legal move, the sowing phase picks up the beads of the
chosen pit (setting it to zero) and places exactly one bead into each of
the positions given by the spec description (`specSowTargets`: decreasing
absolute index, wrapping modulo the board length, skipping the opponent's
base entirely so that it receives no bead and consumes none, stopping when
all picked-up beads are placed); the final position is the last of those
targets, and `move` applies its capture step to the result of that phase. -/
theorem move_sows_per_spec (s : State) (player : Player) (pot : Nat)
    (hpot : pot ∈ s.POTS) (hbeads : s.board.getD (s.OFFSETS player + pot) 0 ≠ 0) :
    s.move player pot
      = .ok ⟨captureStep s player (sowPhase s player pot).1 (sowPhase s player pot).2⟩ ∧
    (specTargetsOf s player pot).length = s.board.getD (s.OFFSETS player + pot) 0 ∧
    s.OFFSETS player.other ∉ specTargetsOf s player pot ∧
    sowPhase s player pot
      = ((specTargetsOf s player pot).foldl place (s.board.set (s.OFFSETS player + pot) 0),
         (specTargetsOf s player pot).getLast?.getD (s.OFFSETS player + pot)) := by
  have h2 : 2 ≤ s.END := by
    have := (legal_bounds s player pot hpot).1
    omega
  refine ⟨?_, ?_, ?_, ?_⟩
  · rw [State.move, if_pos hpot, if_neg hbeads]
  · exact specSowTargets_length _ _ _ _ h2
  · exact specSowTargets_not_mem _ _ _ _
  · simp only [sowPhase, specTargetsOf]
    exact sow_eq_spec s.END (s.OFFSETS player.other) h2 _ _ _

/-- Witness for C1 at the doctest move
`[0,0,0,4,0,0,0,4].move(ONE, 3) = [1,1,1,0,0,0,0,5]`. -/
theorem move_sows_per_spec_witness :
    (State.mk [0, 0, 0, 4, 0, 0, 0, 4]).move Player.ONE 3
      = .ok ⟨captureStep (State.mk [0, 0, 0, 4, 0, 0, 0, 4]) Player.ONE
          (sowPhase (State.mk [0, 0, 0, 4, 0, 0, 0, 4]) Player.ONE 3).1
          (sowPhase (State.mk [0, 0, 0, 4, 0, 0, 0, 4]) Player.ONE 3).2⟩ ∧
    (specTargetsOf (State.mk [0, 0, 0, 4, 0, 0, 0, 4]) Player.ONE 3).length
      = (State.mk [0, 0, 0, 4, 0, 0, 0, 4]).board.getD
          ((State.mk [0, 0, 0, 4, 0, 0, 0, 4]).OFFSETS Player.ONE + 3) 0 ∧
    (State.mk [0, 0, 0, 4, 0, 0, 0, 4]).OFFSETS Player.ONE.other
        ∉ specTargetsOf (State.mk [0, 0, 0, 4, 0, 0, 0, 4]) Player.ONE 3 ∧
    sowPhase (State.mk [0, 0, 0, 4, 0, 0, 0, 4]) Player.ONE 3
      = ((specTargetsOf (State.mk [0, 0, 0, 4, 0, 0, 0, 4]) Player.ONE 3).foldl place
          ((State.mk [0, 0, 0, 4, 0, 0, 0, 4]).board.set
            ((State.mk [0, 0, 0, 4, 0, 0, 0, 4]).OFFSETS Player.ONE + 3) 0),
         (specTargetsOf (State.mk [0, 0, 0, 4, 0, 0, 0, 4]) Player.ONE 3).getLast?.getD
          ((State.mk [0, 0, 0, 4, 0, 0, 0, 4]).OFFSETS Player.ONE + 3)) :=
  move_sows_per_spec (State.mk [0, 0, 0, 4, 0, 0, 0, 4]) Player.ONE 3 (by decide) (by decide)

/-! ### C10: a full lap lands back in the source pit and captures -/

/-- Downward distance from `q` to the opponent's base (0 only at the base
itself); the sowing walk increases it by one per placement, cycling through
`1 .. len-1`. -/
def posToD (len oppBase q : Nat) : Nat :=
  if q ≤ oppBase then oppBase - q else oppBase + len - q

/-- The position reached after `b` placements. -/
def nextPosIter (len oppBase pos : Nat) : Nat → Nat
  | 0 => pos
  | b + 1 => nextPos len oppBase (nextPosIter len oppBase pos b)

theorem posToD_lt (len oppBase q : Nat) (hob : oppBase < len) (hq : q < len) :
    posToD len oppBase q < len := by
  rw [posToD]
  split_ifs <;> omega

theorem posToD_bounds (len oppBase q : Nat) (hob : oppBase < len) (hq : q < len)
    (hqb : q ≠ oppBase) : 1 ≤ posToD len oppBase q ∧ posToD len oppBase q < len := by
  rw [posToD]
  split_ifs <;> omega

theorem posToD_inj (len oppBase a b : Nat) (_hob : oppBase < len) (ha : a < len)
    (hb : b < len) (h : posToD len oppBase a = posToD len oppBase b) : a = b := by
  rw [posToD, posToD] at h
  revert h
  split_ifs <;> omega

theorem posToD_eq_zero_iff (len oppBase q : Nat) (_hob : oppBase < len) (hq : q < len) :
    posToD len oppBase q = 0 ↔ q = oppBase := by
  rw [posToD]
  split_ifs <;> omega

theorem decStep_eq (len q : Nat) (h0 : 0 < len) (hq : q < len) :
    decStep len q = if q = 0 then len - 1 else q - 1 := by
  rw [decStep]
  by_cases hz : q = 0
  · subst hz
    rw [if_pos rfl, Nat.zero_add, Nat.mod_eq_of_lt (by omega)]
  · rw [if_neg hz]
    have e : q + len - 1 = (q - 1) + len := by omega
    rw [e, Nat.add_mod_right, Nat.mod_eq_of_lt (by omega)]

theorem posToD_decStep (len oppBase q : Nat) (h2 : 2 ≤ len) (hob : oppBase < len)
    (hq : q < len) :
    posToD len oppBase (decStep len q) = (posToD len oppBase q + 1) % len := by
  have h0 : 0 < len := by omega
  have hd := posToD_lt len oppBase q hob hq
  have hrhs : (posToD len oppBase q + 1) % len
      = if posToD len oppBase q + 1 = len then 0 else posToD len oppBase q + 1 := by
    split_ifs with h
    · rw [h, Nat.mod_self]
    · exact Nat.mod_eq_of_lt (by omega)
  rw [hrhs, decStep_eq len q h0 hq]
  simp only [posToD]
  split_ifs <;> omega

theorem posToD_nextPos (len oppBase q : Nat) (h2 : 2 ≤ len) (hob : oppBase < len)
    (hq : q < len) :
    posToD len oppBase (nextPos len oppBase q)
      = posToD len oppBase q % (len - 1) + 1 := by
  have h0 : 0 < len := by omega
  have hd := posToD_lt len oppBase q hob hq
  have hdec := posToD_decStep len oppBase q h2 hob hq
  rw [nextPos_eq]
  by_cases hdq : decStep len q = oppBase
  · rw [if_pos hdq]
    have hz : posToD len oppBase (decStep len q) = 0 := by
      rw [posToD_eq_zero_iff len oppBase _ hob (decStep_lt len q h0)]
      exact hdq
    have hlen1 : posToD len oppBase q = len - 1 := by
      rw [hdec] at hz
      rcases Nat.lt_or_ge (posToD len oppBase q + 1) len with hlt | hge
      · rw [Nat.mod_eq_of_lt hlt] at hz
        omega
      · omega
    have hstep2 := posToD_decStep len oppBase (decStep len q) h2 hob (decStep_lt len q h0)
    rw [hz, Nat.zero_add, Nat.mod_eq_of_lt (by omega)] at hstep2
    rw [hstep2, hlen1, Nat.mod_self]
  · rw [if_neg hdq]
    have hnz : posToD len oppBase (decStep len q) ≠ 0 := fun hcon =>
      hdq ((posToD_eq_zero_iff len oppBase _ hob (decStep_lt len q h0)).mp hcon)
    rw [hdec] at hnz ⊢
    rcases Nat.lt_or_ge (posToD len oppBase q + 1) len with hlt | hge
    · rw [Nat.mod_eq_of_lt hlt]
      rw [Nat.mod_eq_of_lt (by omega)]
    · have : posToD len oppBase q + 1 = len := by omega
      rw [this, Nat.mod_self] at hnz
      exact absurd rfl hnz

theorem posToD_nextPosIter (len oppBase pos : Nat) (h2 : 2 ≤ len) (hob : oppBase < len)
    (hpos : pos < len) (hpb : pos ≠ oppBase) :
    ∀ b, posToD len oppBase (nextPosIter len oppBase pos b)
          = (posToD len oppBase pos - 1 + b) % (len - 1) + 1
        ∧ nextPosIter len oppBase pos b < len := by
  have hb0 := posToD_bounds len oppBase pos hob hpos hpb
  intro b
  induction b with
  | zero =>
    refine ⟨?_, hpos⟩
    show posToD len oppBase pos = (posToD len oppBase pos - 1 + 0) % (len - 1) + 1
    rw [Nat.add_zero, Nat.mod_eq_of_lt (by omega)]
    omega
  | succ b ih =>
    obtain ⟨ih1, ih2⟩ := ih
    constructor
    · show posToD len oppBase (nextPos len oppBase (nextPosIter len oppBase pos b)) = _
      rw [posToD_nextPos len oppBase _ h2 hob ih2, ih1, Nat.mod_add_mod]
      rfl
    · exact nextPos_lt len oppBase _ (by omega)

theorem nextPosIter_full_lap (len oppBase pos : Nat) (h2 : 2 ≤ len) (hob : oppBase < len)
    (hpos : pos < len) (hpb : pos ≠ oppBase) :
    nextPosIter len oppBase pos (len - 1) = pos := by
  have hb0 := posToD_bounds len oppBase pos hob hpos hpb
  obtain ⟨h1, hlt⟩ := posToD_nextPosIter len oppBase pos h2 hob hpos hpb (len - 1)
  have e : posToD len oppBase pos - 1 + (len - 1) = (posToD len oppBase pos - 1) + (len - 1) :=
    rfl
  rw [e, Nat.add_mod_right, Nat.mod_eq_of_lt (by omega)] at h1
  refine posToD_inj len oppBase _ pos hob hlt hpos ?_
  rw [h1]
  omega

theorem nextPosIter_ne_start (len oppBase pos b : Nat) (h2 : 2 ≤ len) (hob : oppBase < len)
    (hpos : pos < len) (hpb : pos ≠ oppBase) (hb1 : 1 ≤ b) (hb : b < len - 1) :
    nextPosIter len oppBase pos b ≠ pos := by
  have hb0 := posToD_bounds len oppBase pos hob hpos hpb
  intro hcon
  obtain ⟨h1, _⟩ := posToD_nextPosIter len oppBase pos h2 hob hpos hpb b
  rw [hcon] at h1
  rcases Nat.lt_or_ge (posToD len oppBase pos - 1 + b) (len - 1) with hlt | hge
  · rw [Nat.mod_eq_of_lt hlt] at h1
    omega
  · have e : (posToD len oppBase pos - 1 + b) % (len - 1)
        = posToD len oppBase pos - 1 + b - (len - 1) := by
      rw [Nat.mod_eq_sub_mod hge, Nat.mod_eq_of_lt (by omega)]
    rw [e] at h1
    omega

theorem nextPosIter_shift (len oppBase pos : Nat) :
    ∀ b, nextPosIter len oppBase (nextPos len oppBase pos) b
          = nextPosIter len oppBase pos (b + 1) := by
  intro b
  induction b with
  | zero => rfl
  | succ b ih =>
    show nextPos len oppBase (nextPosIter len oppBase (nextPos len oppBase pos) b) = _
    rw [ih]
    rfl

theorem specSowTargets_eq_iter (len oppBase : Nat) (h2 : 2 ≤ len) :
    ∀ (b pos : Nat), specSowTargets len oppBase pos b
      = (List.range b).map (fun i => nextPosIter len oppBase pos (i + 1)) := by
  intro b
  induction b with
  | zero =>
    intro pos
    rw [specSowTargets_zero]
    rfl
  | succ b ih =>
    intro pos
    rw [specSowTargets_succ len oppBase pos b h2, ih (nextPos len oppBase pos),
      List.range_succ_eq_map, List.map_cons, List.map_map]
    congr 1
    refine List.map_congr_left ?_
    intro i _
    show nextPosIter len oppBase (nextPos len oppBase pos) (i + 1)
        = nextPosIter len oppBase pos (i + 1 + 1)
    rw [nextPosIter_shift]

theorem foldl_place_length (ts : List Nat) :
    ∀ bd : List Nat, (ts.foldl place bd).length = bd.length := by
  induction ts with
  | nil => intro bd; rfl
  | cons t ts ih =>
    intro bd
    rw [List.foldl_cons, ih]
    exact List.length_set bd t _

theorem foldl_place_getD_not_mem (ts : List Nat) :
    ∀ (bd : List Nat) (x : Nat), x ∉ ts →
      (ts.foldl place bd).getD x 0 = bd.getD x 0 := by
  induction ts with
  | nil => intro bd x _; rfl
  | cons t ts ih =>
    intro bd x hx
    rw [List.foldl_cons, ih _ x (fun h => hx (List.mem_cons_of_mem _ h))]
    exact getD_set_ne_idx bd t x _ (fun h => hx (by rw [← h]; exact List.mem_cons_self t ts))

/-- The sowing pass lands a final bead in the acting player's own range
whenever the source pot is one of the player's own pots. -/
theorem in_own_range (s : State) (player : Player) (pot : Nat) (hpot : pot ∈ s.POTS) :
    (player = Player.ONE ∧ s.in_p1_range (s.OFFSETS player + pot)) ∨
    (player = Player.TWO ∧ s.in_p2_range (s.OFFSETS player + pot)) := by
  have hH := (mem_POTS s pot).mp hpot
  cases player
  · left
    refine ⟨rfl, ?_⟩
    rw [OFFSETS_ONE, State.in_p1_range, OFFSETS_ONE]
    simp only [Bool.and_eq_true, bne_iff_ne, beq_iff_eq]
    refine ⟨by omega, ?_⟩
    rw [Nat.div_eq_of_lt (by omega)]
  · right
    refine ⟨rfl, ?_⟩
    rw [OFFSETS_TWO, State.in_p2_range, OFFSETS_TWO]
    simp only [Bool.and_eq_true, bne_iff_ne, beq_iff_eq]
    refine ⟨by omega, ?_⟩
    have e : (s.HALF + pot) / s.HALF = 1 := by
      rw [Nat.add_comm, Nat.add_div_right _ (by omega), Nat.div_eq_of_lt (by omega)]
    rw [e]

/-- Claim C10: a legal move whose pit holds exactly `2H - 1` beads (one full
lap of the positions available to the mover) drops its last bead back into
the source pit, which then holds exactly one bead, so the move captures:
the opposite pit is emptied into the mover's base. -/
theorem full_lap_self_capture (s : State) (player : Player) (pot : Nat) (s2 : State)
    (hmv : s.move player pot = .ok s2)
    (hlap : s.board.getD (s.OFFSETS player + pot) 0 = s.END - 1) :
    (sowPhase s player pot).2 = s.OFFSETS player + pot ∧
    (sowPhase s player pot).1.getD (s.OFFSETS player + pot) 0 = 1 ∧
    s2.board = ((sowPhase s player pot).1.set (s.OFFSETS player)
        ((sowPhase s player pot).1.getD (s.OFFSETS player) 0 +
          (sowPhase s player pot).1.getD (s.END - (s.OFFSETS player + pot)) 0)).set
        (s.END - (s.OFFSETS player + pot)) 0 := by
  obtain ⟨hp, hz, hcap⟩ := move_ok_elim s player pot s2 hmv
  obtain ⟨hE4, hH2, hposlt, hpos0, hposH, hposo⟩ := legal_bounds s player pot hp
  have hHALF : s.HALF = s.board.length / 2 := rfl
  have hEND : s.END = s.board.length := rfl
  have h2 : 2 ≤ s.END := by omega
  have hob : s.OFFSETS player.other < s.END := by
    cases player
    · simp only [Player.other, OFFSETS_TWO]
      omega
    · simp only [Player.other, OFFSETS_ONE]
      omega
  have hsp : sowPhase s player pot
      = sow s.END (s.OFFSETS player.other)
          (s.board.set (s.OFFSETS player + pot) 0) (s.OFFSETS player + pot) (s.END - 1) := by
    simp only [sowPhase, hlap]
  have hiter := nextPosIter_full_lap s.END (s.OFFSETS player.other)
    (s.OFFSETS player + pot) h2 hob hposlt hposo
  have htargets : specSowTargets s.END (s.OFFSETS player.other) (s.OFFSETS player + pot)
        (s.END - 1)
      = ((List.range (s.END - 2)).map
          (fun i => nextPosIter s.END (s.OFFSETS player.other) (s.OFFSETS player + pot) (i + 1)))
        ++ [s.OFFSETS player + pot] := by
    rw [specSowTargets_eq_iter s.END (s.OFFSETS player.other) h2 (s.END - 1)]
    have e : s.END - 1 = (s.END - 2) + 1 := by omega
    rw [e, List.range_succ, List.map_append]
    congr 1
    show [nextPosIter s.END (s.OFFSETS player.other) (s.OFFSETS player + pot) ((s.END - 2) + 1)]
        = [s.OFFSETS player + pot]
    rw [← e, hiter]
  have hnotmem : s.OFFSETS player + pot
      ∉ (List.range (s.END - 2)).map
          (fun i => nextPosIter s.END (s.OFFSETS player.other) (s.OFFSETS player + pot) (i + 1)) := by
    intro hmem
    obtain ⟨i, hi, hieq⟩ := List.mem_map.mp hmem
    rw [List.mem_range] at hi
    exact nextPosIter_ne_start s.END (s.OFFSETS player.other) (s.OFFSETS player + pot) (i + 1)
      h2 hob hposlt hposo (by omega) (by omega) hieq
  have hb1pos : (s.board.set (s.OFFSETS player + pot) 0).getD (s.OFFSETS player + pot) 0 = 0 :=
    getD_set_self_idx s.board (s.OFFSETS player + pot) 0 (by omega)
  have hsow := sow_eq_spec s.END (s.OFFSETS player.other) h2 (s.END - 1)
    (s.board.set (s.OFFSETS player + pot) 0) (s.OFFSETS player + pot)
  have hfinal : (sowPhase s player pot).2 = s.OFFSETS player + pot := by
    rw [hsp, hsow, htargets]
    show (_ ++ [s.OFFSETS player + pot]).getLast?.getD (s.OFFSETS player + pot) = _
    rw [List.getLast?_concat]
    rfl
  have hbd2 : (sowPhase s player pot).1
      = ((((List.range (s.END - 2)).map
            (fun i => nextPosIter s.END (s.OFFSETS player.other) (s.OFFSETS player + pot) (i + 1))).foldl
            place (s.board.set (s.OFFSETS player + pot) 0)).set (s.OFFSETS player + pot)
          ((((List.range (s.END - 2)).map
            (fun i => nextPosIter s.END (s.OFFSETS player.other) (s.OFFSETS player + pot) (i + 1))).foldl
            place (s.board.set (s.OFFSETS player + pot) 0)).getD (s.OFFSETS player + pot) 0 + 1)) := by
    rw [hsp, hsow, htargets]
    show (_ ++ [s.OFFSETS player + pot]).foldl place (s.board.set (s.OFFSETS player + pot) 0) = _
    rw [List.foldl_append]
    rfl
  have hone : (sowPhase s player pot).1.getD (s.OFFSETS player + pot) 0 = 1 := by
    rw [hbd2]
    rw [getD_set_self_idx _ _ _ (by
      rw [foldl_place_length, List.length_set]
      omega)]
    rw [foldl_place_getD_not_mem _ _ _ hnotmem, hb1pos]
  refine ⟨hfinal, hone, ?_⟩
  rw [hcap, hfinal, captureStep]
  rw [if_pos (by
    rw [OFFSETS_ONE, OFFSETS_TWO]
    exact ⟨by omega, hposH⟩)]
  rw [if_pos hone, if_pos (in_own_range s player pot hp)]
  have hopp : s.get_opposite (s.OFFSETS player + pot)
      = some (s.END - (s.OFFSETS player + pot)) := by
    rw [State.get_opposite, if_neg]
    rw [OFFSETS_ONE, OFFSETS_TWO]
    push_neg
    exact ⟨by omega, hposH⟩
  rw [hopp]

/-- Witness for C10: on `[0,3,0,0]`, pot 1 holds `2H - 1 = 3` beads; the move
laps the board, lands back in pot 1 and captures, giving `[2,1,0,0]`. -/
theorem full_lap_self_capture_witness :
    (sowPhase (State.mk [0, 3, 0, 0]) Player.ONE 1).2
        = (State.mk [0, 3, 0, 0]).OFFSETS Player.ONE + 1 ∧
    (sowPhase (State.mk [0, 3, 0, 0]) Player.ONE 1).1.getD
        ((State.mk [0, 3, 0, 0]).OFFSETS Player.ONE + 1) 0 = 1 ∧
    (State.mk [2, 1, 0, 0]).board
      = ((sowPhase (State.mk [0, 3, 0, 0]) Player.ONE 1).1.set
          ((State.mk [0, 3, 0, 0]).OFFSETS Player.ONE)
          ((sowPhase (State.mk [0, 3, 0, 0]) Player.ONE 1).1.getD
            ((State.mk [0, 3, 0, 0]).OFFSETS Player.ONE) 0 +
            (sowPhase (State.mk [0, 3, 0, 0]) Player.ONE 1).1.getD
              ((State.mk [0, 3, 0, 0]).END
                - ((State.mk [0, 3, 0, 0]).OFFSETS Player.ONE + 1)) 0)).set
          ((State.mk [0, 3, 0, 0]).END - ((State.mk [0, 3, 0, 0]).OFFSETS Player.ONE + 1)) 0 :=
  full_lap_self_capture (State.mk [0, 3, 0, 0]) Player.ONE 1 (State.mk [2, 1, 0, 0])
    (by decide) (by decide)

/-! ### C6: random playout structure -/

theorem move_ok_of_mem_possible (s : State) (player : Player) (n : Nat)
    (hn : n ∈ s.possible_moves player) : ∃ s2, s.move player n = .ok s2 := by
  rw [State.possible_moves, List.mem_filter] at hn
  obtain ⟨hmem, hbead⟩ := hn
  rw [bne_iff_ne] at hbead
  exact ⟨⟨captureStep s player (sowPhase s player n).1 (sowPhase s player n).2⟩, by
    rw [State.move, if_pos hmem, if_neg hbead]⟩

theorem tree_succ (s : State) (player : Player) (pick : List Nat → Nat) (fuel : Nat) :
    s.tree player pick (fuel + 1)
      = if s.possible_moves player.other = [] then some s.p1_wins_by
        else if s.possible_moves player = [] then some s.p1_wins_by
        else match s.move player (pick (s.possible_moves player)) with
          | .ok s2 => s2.tree player.other pick fuel
          | .error _ => none := rfl

/-- Claim C6: one step of the random playout: it first checks whether the
opponent of the current mover is out of moves and then returns the margin
immediately; otherwise, if the mover is out of moves it also returns the
margin; otherwise it applies the picked legal move (which always succeeds)
and recurses with the players swapped.  The draw of `random.choice` is an
oracle `pick` that returns a member of any non-empty list. -/
theorem tree_spec (s : State) (player : Player) (pick : List Nat → Nat) (fuel : Nat)
    (hpick : ∀ l : List Nat, l ≠ [] → pick l ∈ l) :
    (s.possible_moves player.other = [] →
      s.tree player pick (fuel + 1) = some s.p1_wins_by) ∧
    (s.possible_moves player.other ≠ [] → s.possible_moves player = [] →
      s.tree player pick (fuel + 1) = some s.p1_wins_by) ∧
    (s.possible_moves player.other ≠ [] → s.possible_moves player ≠ [] →
      pick (s.possible_moves player) ∈ s.possible_moves player ∧
      ∃ s2, s.move player (pick (s.possible_moves player)) = .ok s2 ∧
        s.tree player pick (fuel + 1) = s2.tree player.other pick fuel) := by
  refine ⟨?_, ?_, ?_⟩
  · intro h1
    rw [tree_succ, if_pos h1]
  · intro h1 h2
    rw [tree_succ, if_neg h1, if_pos h2]
  · intro h1 h2
    have hmem := hpick (s.possible_moves player) h2
    obtain ⟨s2, hs2⟩ := move_ok_of_mem_possible s player _ hmem
    refine ⟨hmem, s2, hs2, ?_⟩
    rw [tree_succ, if_neg h1, if_neg h2, hs2]

/-- Witness for C6 at the doctest `[1,1,0,0].tree(ONE) = 2` (player TWO has
no move, so the playout returns the margin at once). -/
theorem tree_spec_witness :
    (∀ l : List Nat, l ≠ [] → l.headD 0 ∈ l) ∧
    (State.mk [1, 1, 0, 0]).tree Player.ONE (fun l => l.headD 0) 1 = some 2 := by
  have hpick : ∀ l : List Nat, l ≠ [] → l.headD 0 ∈ l := by
    intro l hl
    cases l with
    | nil => exact absurd rfl hl
    | cons a t => exact List.mem_cons_self a t
  have h := (tree_spec (State.mk [1, 1, 0, 0]) Player.ONE (fun l => l.headD 0) 0 hpick).1
    (by decide)
  exact ⟨hpick, h.trans (by decide)⟩

/-! ### C5: move suggestion -/

theorem pairLe_trans : ∀ a b c : Rat × Nat,
    pairLe a b = true → pairLe b c = true → pairLe a c = true := by
  intro a b c hab hbc
  simp only [pairLe, decide_eq_true_eq] at hab hbc ⊢
  rcases hab with h1 | ⟨h1, h2⟩ <;> rcases hbc with h3 | ⟨h3, h4⟩
  · exact Or.inl (lt_trans h1 h3)
  · exact Or.inl (h3 ▸ h1)
  · exact Or.inl (h1 ▸ h3)
  · exact Or.inr ⟨h1.trans h3, le_trans h2 h4⟩

theorem pairLe_total : ∀ a b : Rat × Nat, (pairLe a b || pairLe b a) = true := by
  intro a b
  simp only [pairLe, Bool.or_eq_true, decide_eq_true_eq]
  rcases lt_trichotomy a.1 b.1 with h | h | h
  · exact Or.inl (Or.inl h)
  · rcases Nat.le_total a.2 b.2 with h2 | h2
    · exact Or.inl (Or.inr ⟨h, h2⟩)
    · exact Or.inr (Or.inr ⟨h.symm, h2⟩)
  · exact Or.inr (Or.inl h)

theorem getLast_max {α : Type} (R : α → α → Prop) :
    ∀ (l : List α) (hne : l ≠ []), l.Pairwise R →
      ∀ x ∈ l, x = l.getLast hne ∨ R x (l.getLast hne) := by
  intro l
  induction l with
  | nil => intro h; exact absurd rfl h
  | cons a t ih =>
    intro hne hpw x hx
    cases t with
    | nil =>
      rw [List.mem_singleton] at hx
      exact Or.inl (by rw [hx]; rfl)
    | cons b t2 =>
      rw [List.getLast_cons (by simp)]
      rcases List.mem_cons.mp hx with rfl | hx2
      · exact Or.inr ((List.pairwise_cons.mp hpw).1 _ (List.getLast_mem _))
      · exact ih (by simp) (List.pairwise_cons.mp hpw).2 x hx2

theorem hyp_mem_fst (s : State) (player : Player) (runs : Nat) (T : List Nat → Nat → Int)
    (kv : Nat × Rat) (h : kv ∈ s.hypothetical_moves player runs T) :
    kv.1 ∈ s.possible_moves player := by
  rw [State.hypothetical_moves] at h
  obtain ⟨m, hm, heq⟩ := List.mem_map.mp h
  cases hmv : s.move player m with
  | ok s2 =>
    rw [hmv] at heq
    rw [← heq]
    exact hm
  | error e =>
    rw [hmv] at heq
    rw [← heq]
    exact hm

theorem hyp_eq_nil (s : State) (player : Player) (runs : Nat) (T : List Nat → Nat → Int) :
    s.hypothetical_moves player runs T = [] ↔ s.possible_moves player = [] := by
  rw [State.hypothetical_moves, List.map_eq_nil_iff]

/-- Claim C5: `suggest` returns `none` exactly when the player has no legal
move; otherwise it returns a legal pot whose average margin in
`hypothetical_moves` is maximal, ties broken towards the highest-numbered
pot (every other entry has either a strictly smaller value, or an equal
value and a pot number not above the returned one).  Playout outcomes are
the oracle `T`, and `runs ≥ 1` as the spec requires. -/
theorem suggest_spec (s : State) (player : Player) (runs : Nat)
    (T : List Nat → Nat → Int) (_hruns : 1 ≤ runs) :
    (s.suggest player runs T = none ↔ s.possible_moves player = []) ∧
    (∀ n, s.suggest player runs T = some n →
      n ∈ s.possible_moves player ∧
      ∃ v, (n, v) ∈ s.hypothetical_moves player runs T ∧
        ∀ mv ∈ s.hypothetical_moves player runs T,
          mv.2 < v ∨ (mv.2 = v ∧ mv.1 ≤ n)) := by
  constructor
  · constructor
    · intro h
      rw [State.suggest] at h
      by_cases hres : s.hypothetical_moves player runs T = []
      · exact (hyp_eq_nil s player runs T).mp hres
      · rw [if_neg hres] at h
        cases h
    · intro h
      rw [State.suggest, if_pos ((hyp_eq_nil s player runs T).mpr h)]
  · intro n hsug
    rw [State.suggest] at hsug
    by_cases hres : s.hypothetical_moves player runs T = []
    · rw [if_pos hres] at hsug
      cases hsug
    · rw [if_neg hres] at hsug
      injection hsug with hsug
      have hpne : (s.hypothetical_moves player runs T).map (fun kv => (kv.2, kv.1)) ≠ [] := by
        intro hcon
        exact hres (List.map_eq_nil_iff.mp hcon)
      have hperm := List.mergeSort_perm
        ((s.hypothetical_moves player runs T).map (fun kv => (kv.2, kv.1))) pairLe
      have hsne : ((s.hypothetical_moves player runs T).map
          (fun kv => (kv.2, kv.1))).mergeSort pairLe ≠ [] := by
        intro hcon
        have hlen := hperm.length_eq
        rw [hcon] at hlen
        exact hpne (List.eq_nil_of_length_eq_zero hlen.symm)
      rw [List.getLast?_eq_getLast _ hsne] at hsug
      have hb2 : (((s.hypothetical_moves player runs T).map
          (fun kv => (kv.2, kv.1))).mergeSort pairLe |>.getLast hsne).2 = n := hsug
      have hmem_pairs : (((s.hypothetical_moves player runs T).map
          (fun kv => (kv.2, kv.1))).mergeSort pairLe).getLast hsne
          ∈ (s.hypothetical_moves player runs T).map (fun kv => (kv.2, kv.1)) :=
        hperm.subset (List.getLast_mem hsne)
      obtain ⟨kv, hkv_mem, hkv_eq⟩ := List.mem_map.mp hmem_pairs
      have hkv1 : kv.1 = n := by
        rw [← hb2, ← hkv_eq]
      have hkv2 : kv.2 = (((s.hypothetical_moves player runs T).map
          (fun kv => (kv.2, kv.1))).mergeSort pairLe |>.getLast hsne).1 := by
        rw [← hkv_eq]
      have hsorted := List.sorted_mergeSort pairLe_trans pairLe_total
        ((s.hypothetical_moves player runs T).map (fun kv => (kv.2, kv.1)))
      have hmax := getLast_max (fun a b => pairLe a b = true)
        (((s.hypothetical_moves player runs T).map
          (fun kv => (kv.2, kv.1))).mergeSort pairLe) hsne hsorted
      refine ⟨?_, kv.2, ?_, ?_⟩
      · rw [← hkv1]
        exact hyp_mem_fst s player runs T kv hkv_mem
      · have he : (n, kv.2) = kv := by
          rw [← hkv1]
        rw [he]
        exact hkv_mem
      · intro mv hmv
        have hpair_in_sorted : (mv.2, mv.1) ∈ ((s.hypothetical_moves player runs T).map
            (fun kv => (kv.2, kv.1))).mergeSort pairLe :=
          List.mem_mergeSort.mpr (List.mem_map_of_mem _ hmv)
        rcases hmax (mv.2, mv.1) hpair_in_sorted with heq2 | hle
        · right
          constructor
          · rw [hkv2, ← heq2]
          · rw [← hb2, ← heq2]
        · simp only [pairLe, decide_eq_true_eq] at hle
          rcases hle with h | ⟨h1, h2⟩
          · left
            rw [hkv2]
            exact h
          · right
            exact ⟨by rw [hkv2]; exact h1, by rw [← hb2]; exact h2⟩

/-- Witness for C5 on the board `[0,1,1,0,1,1]` with one run and a constant
playout oracle. -/
theorem suggest_spec_witness :
    1 ≤ 1 ∧
    ((State.mk [0, 1, 1, 0, 1, 1]).suggest Player.ONE 1 (fun _ _ => 0) = none
      ↔ (State.mk [0, 1, 1, 0, 1, 1]).possible_moves Player.ONE = []) :=
  ⟨le_refl 1,
    (suggest_spec (State.mk [0, 1, 1, 0, 1, 1]) Player.ONE 1 (fun _ _ => 0) (le_refl 1)).1⟩

/-! ### C9: margin antisymmetry -/

/-- Claim C9: `p1_wins_by` is the sum of the first half minus the sum of the
second half, and swapping the two halves' contents negates it. -/
theorem p1_wins_by_halves (b1 b2 : List Nat) (h : b1.length = b2.length) :
    State.p1_wins_by ⟨b1 ++ b2⟩ = ((b1.sum : Int) - (b2.sum : Int)) ∧
    State.p1_wins_by ⟨b2 ++ b1⟩ = -State.p1_wins_by ⟨b1 ++ b2⟩ := by
  have e1 : ∀ (c1 c2 : List Nat), c1.length = c2.length →
      State.p1_wins_by ⟨c1 ++ c2⟩ = ((c1.sum : Int) - (c2.sum : Int)) := by
    intro c1 c2 hc
    have hH : (State.mk (c1 ++ c2)).HALF = c1.length := by
      simp only [State.HALF, List.length_append]
      omega
    rw [State.p1_wins_by]
    show (((c1 ++ c2).take (State.mk (c1 ++ c2)).HALF).sum : Int)
        - (((c1 ++ c2).drop (State.mk (c1 ++ c2)).HALF).sum : Int) = _
    rw [hH, List.take_left, List.drop_left]
  refine ⟨e1 b1 b2 h, ?_⟩
  rw [e1 b1 b2 h, e1 b2 b1 h.symm]
  ring

/-- Witness for C9 at the doctest board `[1,1,1,0,0,0]`. -/
theorem p1_wins_by_halves_witness :
    ([1, 1, 1] : List Nat).length = ([0, 0, 0] : List Nat).length ∧
    State.p1_wins_by ⟨[0, 0, 0] ++ [1, 1, 1]⟩ = -State.p1_wins_by ⟨[1, 1, 1] ++ [0, 0, 0]⟩ :=
  ⟨rfl, (p1_wins_by_halves [1, 1, 1] [0, 0, 0] rfl).2⟩
